import Mathlib

/-!
Shallow embedding of the BuffaloBuffalo chart parser.

Sources embedded here:
- `src/types.ts`          : symbol vocabulary, lexicon entries, rules, parse nodes
- `src/parser/lexicon.ts` : `Lexicon`, `createBuffaloLexicon`
- `src/parser/grammar.ts` : `Grammar`, `createEnglishGrammar`, `isTerminal`
- `src/parser/earley.ts`  : `EarleyParser.parse` and its helper methods

Modelling conventions:
- TypeScript string-literal symbol types (`PartOfSpeech`, `NonTerminal`,
  `GrammarSymbol`) form one closed vocabulary of string constants; the
  proper-noun tag is the string "NP", the same string as the noun-phrase
  non-terminal, so it is one value here.  The runtime also uses the tag
  "PN" (in `createBuffaloLexicon` and `createEnglishGrammar`), so it is a
  constructor as well.  `GSymbol.name` recovers the underlying string and
  is injective (`GSymbol.name_inj` below), so deduplication keyed on the
  name strings agrees with deduplication keyed on the constructors.
- JavaScript `Map`s used with append-only list values become insertion
  ordered association lists (`mapGetList` / `mapPush`), matching `Map`
  iteration order semantics.
- JavaScript `number` rule weights are only stored and copied, never
  computed with, and are modelled as rationals.
- The two worklist loops of the parser (column processing and the live
  iteration inside `complete`) iterate by index over a list that can grow
  while it is being traversed.  They are written with an explicit fuel
  argument; `parse` supplies fuel exceeding the number of distinct chart
  items that can ever enter a column, so the fuel never runs out on a run
  of the embedded `parse`.
-/

/-- The closed symbol vocabulary of `src/types.ts` (`PartOfSpeech` and
`NonTerminal` string literal types, plus the runtime tag "PN"). -/
inductive GSymbol where
  | S | NP | VP | PP | ADJP | ADVP | RC
  | N | V | PN | DET | ADJ | ADV | PREP | CONJ | REL | AUX
deriving DecidableEq, Repr

/-- The underlying string of a symbol (the TypeScript value itself). -/
def GSymbol.name : GSymbol → String
  | .S => "S" | .NP => "NP" | .VP => "VP" | .PP => "PP" | .ADJP => "ADJP"
  | .ADVP => "ADVP" | .RC => "RC"
  | .N => "N" | .V => "V" | .PN => "PN" | .DET => "DET" | .ADJ => "ADJ"
  | .ADV => "ADV" | .PREP => "PREP" | .CONJ => "CONJ" | .REL => "REL"
  | .AUX => "AUX"

/-- A numeric code for each symbol, below 17. -/
def GSymbol.code : GSymbol → Nat
  | .S => 0 | .NP => 1 | .VP => 2 | .PP => 3 | .ADJP => 4 | .ADVP => 5
  | .RC => 6 | .N => 7 | .V => 8 | .PN => 9 | .DET => 10 | .ADJ => 11
  | .ADV => 12 | .PREP => 13 | .CONJ => 14 | .REL => 15 | .AUX => 16

/-- Base 18 encoding of a symbol sequence; injective
(`encodeSymbols_injective` below). -/
def encodeSymbols (l : List GSymbol) : Nat :=
  l.foldl (fun a s => a * 18 + (s.code + 1)) 0

/-- Symbol equality through the numeric code (`GSymbol.code` is injective,
`beq_gsymbol_lawful` below), so that comparisons reduce through fast
numeric equality. -/
instance : BEq GSymbol := ⟨fun a b => a.code == b.code⟩

instance beq_gsymbol_lawful : LawfulBEq GSymbol where
  eq_of_beq := by
    intro a b h
    cases a <;> cases b <;> (try rfl) <;> exact absurd h (by decide)
  rfl := by intro a; cases a <;> rfl

/-- The fixed non-terminal set of `isTerminal` in `src/parser/grammar.ts`. -/
def nonTerminalSet : List GSymbol :=
  [.S, .NP, .VP, .PP, .ADJP, .ADVP, .RC]

/-- `isTerminal` from `src/parser/grammar.ts`: membership in the fixed
non-terminal set decides the classification. -/
def isTerminal (symbol : GSymbol) : Bool :=
  !(nonTerminalSet.contains symbol)

/-- `isNonTerminal` from `src/parser/grammar.ts`. -/
def isNonTerminal (symbol : GSymbol) : Bool :=
  !(isTerminal symbol)

/-- Grammatical number (`src/types.ts`). -/
inductive GNumber where
  | singular | plural
deriving DecidableEq, Repr

/-- Grammatical person (`src/types.ts`). -/
inductive GPerson where
  | first | second | third
deriving DecidableEq, Repr

/-- Tense (`src/types.ts`). -/
inductive GTense where
  | present | past | future
deriving DecidableEq, Repr

/-- Grammatical case (`src/types.ts`); the `case` field of
`GrammaticalFeatures` is spelled `gcase` because `case` is reserved. -/
inductive GCase where
  | nominative | accusative | genitive
deriving DecidableEq, Repr

/-- `GrammaticalFeatures` from `src/types.ts`. -/
structure GrammaticalFeatures where
  number : Option GNumber
  person : Option GPerson
  tense : Option GTense
  gcase : Option GCase
deriving DecidableEq, Repr

/-- `LexiconEntry` from `src/types.ts`.  The `lemma` field is spelled
`lemmaForm` because `lemma` is reserved; `addWord` always fills it, so it
is total here. -/
structure LexEntry where
  word : String
  pos : GSymbol
  lemmaForm : String
  features : Option GrammaticalFeatures
deriving DecidableEq, Repr

/-- Association list read for a JavaScript `Map` whose values are
append-only lists: `map.get(k) ?? []`. -/
def mapGetList {K V : Type} [BEq K] (m : List (K × List V)) (k : K) : List V :=
  match m.find? (fun p => p.1 == k) with
  | some p => p.2
  | none => []

/-- Association list update for the idiom
`map.set(k, list-for-k-with-v-pushed)`.  A JavaScript `Map` keeps an
existing key at its original position, so an existing binding is extended
in place and a new key is appended. -/
def mapPush {K V : Type} [BEq K] (m : List (K × List V)) (k : K) (v : V) :
    List (K × List V) :=
  match m with
  | [] => [(k, [v])]
  | (k', vs) :: rest =>
    if k' == k then (k', vs ++ [v]) :: rest else (k', vs) :: mapPush rest k v

/-- ASCII lowercasing, modelling `String.prototype.toLowerCase` on the
ASCII range used by this program. -/
def lowerStr (s : String) : String := ⟨s.data.map Char.toLower⟩

/-- `Lexicon` from `src/parser/lexicon.ts`: a `Map` from lowercased word
to the list of its entries, in insertion order. -/
structure Lexicon where
  entries : List (String × List LexEntry)
deriving DecidableEq, Repr

/-- The empty lexicon (`new Lexicon()`). -/
def Lexicon.empty : Lexicon := ⟨[]⟩

/-- `Lexicon.addWord` from `src/parser/lexicon.ts`: appends one entry for
the word, never removing or merging existing entries. -/
def Lexicon.addWord (lex : Lexicon) (word : String) (pos : GSymbol)
    (features : Option GrammaticalFeatures) (lemmaForm : Option String) :
    Lexicon :=
  let entry : LexEntry := ⟨word, pos, lemmaForm.getD (lowerStr word), features⟩
  ⟨mapPush lex.entries (lowerStr word) entry⟩

/-- `Lexicon.lookup` from `src/parser/lexicon.ts`. -/
def Lexicon.lookup (lex : Lexicon) (word : String) : List LexEntry :=
  mapGetList lex.entries (lowerStr word)

/-- `Lexicon.has` from `src/parser/lexicon.ts`. -/
def Lexicon.has (lex : Lexicon) (word : String) : Bool :=
  (lex.entries.find? (fun p => p.1 == lowerStr word)).isSome

/-- `createBuffaloLexicon` from `src/parser/lexicon.ts`.  Feature records
are written as `⟨number, person, tense, case⟩`. -/
def createBuffaloLexicon : Lexicon :=
  Lexicon.empty
  |>.addWord "Buffalo" .PN none (some "buffalo")
  |>.addWord "buffalo" .N (some ⟨some .plural, none, none, none⟩) none
  |>.addWord "buffalo" .N (some ⟨some .singular, none, none, none⟩) none
  |>.addWord "buffalo" .V (some ⟨some .plural, none, some .present, none⟩) none
  |>.addWord "buffalo" .V
      (some ⟨some .singular, some .first, some .present, none⟩) none
  |>.addWord "buffalo" .V
      (some ⟨some .singular, some .second, some .present, none⟩) none
  |>.addWord "buffalo" .ADV none none

/-- `GrammarRule` from `src/types.ts`.  `addRule` always supplies the
weight, so `probability` is total here. -/
structure GrammarRule where
  lhs : GSymbol
  rhs : List GSymbol
  probability : ℚ
deriving DecidableEq, Repr

/-- `Grammar` from `src/parser/grammar.ts`.  The source also keeps a
`rulesByLhs` map grouping the same rules by left-hand side in insertion
order; that grouping is recovered here by `getRulesFor` as a filter of the
insertion-ordered rule list, which yields the same list. -/
structure Grammar where
  rules : List GrammarRule
deriving DecidableEq, Repr

/-- The empty grammar (`new Grammar()`). -/
def Grammar.empty : Grammar := ⟨[]⟩

/-- `Grammar.addRule` from `src/parser/grammar.ts`. -/
def Grammar.addRule (g : Grammar) (lhs : GSymbol) (rhs : List GSymbol)
    (probability : ℚ) : Grammar :=
  ⟨g.rules ++ [⟨lhs, rhs, probability⟩]⟩

/-- `Grammar.getRulesFor` from `src/parser/grammar.ts`: all rules with the
given left-hand side, in insertion order. -/
def Grammar.getRulesFor (g : Grammar) (lhs : GSymbol) : List GrammarRule :=
  g.rules.filter (fun r => r.lhs == lhs)

/-- `Grammar.startSymbol` from `src/parser/grammar.ts` (always "S"). -/
def Grammar.startSymbol (_g : Grammar) : GSymbol := .S

/-- `createEnglishGrammar` from `src/parser/grammar.ts`. -/
def createEnglishGrammar : Grammar :=
  Grammar.empty
  |>.addRule .S [.NP, .VP] 1
  |>.addRule .S [.VP] (8/10)
  |>.addRule .S [.NP] (5/10)
  |>.addRule .S [.S, .CONJ, .S] (7/10)
  |>.addRule .NP [.N] (6/10)
  |>.addRule .NP [.DET, .N] (9/10)
  |>.addRule .NP [.DET, .ADJ, .N] (8/10)
  |>.addRule .NP [.ADJ, .N] (5/10)
  |>.addRule .NP [.NP, .PP] (6/10)
  |>.addRule .NP [.NP, .RC] (7/10)
  |>.addRule .NP [.PN] (8/10)
  |>.addRule .NP [.PN, .N] (85/100)
  |>.addRule .NP [.NP, .CONJ, .NP] (6/10)
  |>.addRule .VP [.V] (7/10)
  |>.addRule .VP [.V, .NP] (9/10)
  |>.addRule .VP [.V, .NP, .PP] (6/10)
  |>.addRule .VP [.V, .PP] (5/10)
  |>.addRule .VP [.V, .ADV] (6/10)
  |>.addRule .VP [.ADV, .V] (5/10)
  |>.addRule .VP [.V, .NP, .ADV] (5/10)
  |>.addRule .VP [.ADV, .V, .NP] (5/10)
  |>.addRule .VP [.VP, .CONJ, .VP] (6/10)
  |>.addRule .ADVP [.ADV] (8/10)
  |>.addRule .ADVP [.ADV, .ADV] (4/10)
  |>.addRule .PP [.PREP, .NP] 1
  |>.addRule .RC [.REL, .S] (8/10)
  |>.addRule .RC [.REL, .VP] (7/10)
  |>.addRule .RC [.NP, .VP] (6/10)
  |>.addRule .RC [.S] (4/10)

mutual
/-- `ParseNode` from `src/types.ts`.  The optional `entry` field is never
assigned by the parser and is omitted.  Children are a dedicated list type
so that recursion over trees is structural. -/
inductive ParseNode where
  | mk (symbol : GSymbol) (children : ParseNodeList) (word : Option String)
       (span : Nat × Nat)

/-- The children list of a `ParseNode`. -/
inductive ParseNodeList where
  | nil
  | cons (hd : ParseNode) (tl : ParseNodeList)
end

/-- Symbol of a node. -/
def ParseNode.symbol : ParseNode → GSymbol
  | .mk s _ _ _ => s

/-- Children of a node. -/
def ParseNode.children : ParseNode → ParseNodeList
  | .mk _ c _ _ => c

/-- Word of a node (present exactly on scanned terminal nodes). -/
def ParseNode.word : ParseNode → Option String
  | .mk _ _ w _ => w

/-- Span of a node, a half-open token interval. -/
def ParseNode.span : ParseNode → Nat × Nat
  | .mk _ _ _ sp => sp

/-- Append two children lists. -/
def ParseNodeList.append : ParseNodeList → ParseNodeList → ParseNodeList
  | .nil, l => l
  | .cons h t, l => .cons h (t.append l)

/-- A singleton children list. -/
def ParseNodeList.single (n : ParseNode) : ParseNodeList := .cons n .nil

/-- Convert a children list to an ordinary list. -/
def ParseNodeList.toList : ParseNodeList → List ParseNode
  | .nil => []
  | .cons h t => h :: t.toList

/-- `ParseTree` from `src/types.ts`. -/
structure ParseTree where
  root : ParseNode
  sentence : List String
  probability : ℚ

/-- `ParseResult` from `src/types.ts`. -/
structure ParseResult where
  input : List String
  trees : List ParseTree
  errors : Option (List String)

namespace EarleyParser

/-- `EarleyItem` from `src/parser/earley.ts`. -/
structure EarleyItem where
  rule : GrammarRule
  dot : Nat
  start : Nat
  id : Nat
deriving DecidableEq, Repr

/-- `Edge` from `src/parser/earley.ts`. -/
structure Edge where
  itemId : Nat
  children : List Nat
  terminalWord : Option String
deriving DecidableEq, Repr

/-- `maxTrees` from `src/parser/earley.ts`. -/
def maxTrees : Nat := 100

/-- The chart dedup key.  The source builds the string
`lhs + "->" + rhs.join(",") + "@" + dot + "#" + start`, an injective
function of the quadruple `(lhs, rhs, dot, start)` (symbol names contain
no delimiter and are pairwise distinct).  Here the key is an injective
numeric encoding of the same quadruple (`chartKey_inj` below), so key
equality coincides with the source's key string equality. -/
def chartKey (rule : GrammarRule) (dot start : Nat) : Nat :=
  Nat.pair (Nat.pair rule.lhs.code (encodeSymbols rule.rhs)) (Nat.pair dot start)

/-- The mutable state of one `parse` call: the chart columns, the per
column dedup key sets, the id counter and the provenance edge map. -/
structure ChartState where
  chart : List (List EarleyItem)
  chartSet : List (List Nat)
  nextId : Nat
  edges : List (Nat × List Edge)
deriving Repr, DecidableEq

/-- `addItem` from `src/parser/earley.ts`: dedup by key; on a duplicate
key return the already stored structurally equal item (the key ignores
the rule weight, so the stored item's rule can differ in weight). -/
def addItem (pos : Nat) (rule : GrammarRule) (dot start : Nat)
    (st : ChartState) : Option EarleyItem × ChartState :=
  let key := chartKey rule dot start
  if (st.chartSet.getD pos []).contains key then
    ((st.chart.getD pos []).find? (fun i =>
        i.dot == dot && i.start == start &&
        i.rule.lhs == rule.lhs && i.rule.rhs == rule.rhs),
     st)
  else
    let item : EarleyItem := ⟨rule, dot, start, st.nextId⟩
    (some item,
     { chart := st.chart.set pos ((st.chart.getD pos []) ++ [item]),
       chartSet := st.chartSet.set pos ((st.chartSet.getD pos []) ++ [key]),
       nextId := st.nextId + 1,
       edges := st.edges })

/-- One lexicon entry inside the scanning loop of `scan`
(`src/parser/earley.ts`): on a part-of-speech match, advance the item into
the next column and record a leaf provenance edge. -/
def scanEntry (pos : Nat) (item : EarleyItem) (word : String)
    (nextSymbol : GSymbol) (st : ChartState) (entry : LexEntry) : ChartState :=
  if entry.pos == nextSymbol then
    match addItem (pos + 1) item.rule (item.dot + 1) item.start st with
    | (some newItem, st1) =>
      { st1 with edges := mapPush st1.edges newItem.id ⟨item.id, [], some word⟩ }
    | (none, st1) => st1
  else st

/-- `scan` from `src/parser/earley.ts`. -/
def scanStep (lex : Lexicon) (pos : Nat) (item : EarleyItem) (word : String)
    (st : ChartState) : ChartState :=
  match item.rule.rhs.get? item.dot with
  | none => st
  | some nextSymbol =>
    if isTerminal nextSymbol then
      (lex.lookup word).foldl (fun s e => scanEntry pos item word nextSymbol s e) st
    else st

/-- `predict` from `src/parser/earley.ts`. -/
def predictStep (g : Grammar) (pos : Nat) (symbol : GSymbol)
    (st : ChartState) : ChartState :=
  (g.getRulesFor symbol).foldl (fun s rule => (addItem pos rule 0 pos s).2) st

/-- The body of the completion loop of `complete`
(`src/parser/earley.ts`), for one waiting item. -/
def completeOne (pos : Nat) (completedItem : EarleyItem) (st : ChartState)
    (waitingItem : EarleyItem) : ChartState :=
  if waitingItem.rule.rhs.get? waitingItem.dot == some completedItem.rule.lhs then
    match addItem pos waitingItem.rule (waitingItem.dot + 1) waitingItem.start st with
    | (some newItem, st1) =>
      { st1 with edges :=
          mapPush st1.edges newItem.id ⟨waitingItem.id, [completedItem.id], none⟩ }
    | (none, st1) => st1
  else st

/-- The live iteration of `complete` over `chart[completedItem.start]`,
by index over the current state, with fuel: used when that column is the
one currently being grown. -/
def completeLoop (pos : Nat) (completedItem : EarleyItem) :
    Nat → Nat → ChartState → ChartState
  | 0, _, st => st
  | fuel + 1, j, st =>
    match (st.chart.getD completedItem.start []).get? j with
    | none => st
    | some waitingItem =>
      completeLoop pos completedItem fuel (j + 1)
        (completeOne pos completedItem st waitingItem)

/-- `complete` from `src/parser/earley.ts`.  The source iterates
`chart[completedItem.start]` with a live `for..of` loop.  Every insertion
made by the loop body targets column `pos` only, so when
`completedItem.start ≠ pos` the iterated column never changes and the live
loop coincides with a fold over its snapshot (`completeStep_eq_loop`
below); when the iterated column is the one being grown, the index based
live loop is used. -/
def completeStep (pos : Nat) (completedItem : EarleyItem) (fuel : Nat)
    (st : ChartState) : ChartState :=
  if completedItem.start == pos then
    completeLoop pos completedItem fuel 0 st
  else
    (st.chart.getD completedItem.start []).foldl
      (fun s w => completeOne pos completedItem s w) st

/-- The per item dispatch of the chart processing loop in `parse`
(`src/parser/earley.ts`): completion, prediction or scanning. -/
def processItem (g : Grammar) (lex : Lexicon) (input : List String)
    (fuel pos : Nat) (item : EarleyItem) (st : ChartState) : ChartState :=
  if item.rule.rhs.length ≤ item.dot then
    completeStep pos item fuel st
  else
    match item.rule.rhs.get? item.dot with
    | none => st
    | some nextSymbol =>
      if isNonTerminal nextSymbol then
        predictStep g pos nextSymbol st
      else if pos < input.length then
        scanStep lex pos item (input.getD pos "") st
      else st

/-- The worklist loop over one growing chart column in `parse`
(`src/parser/earley.ts`): index-based iteration re-reading the column from
the current state, so items inserted mid-traversal are processed too. -/
def processColumn (g : Grammar) (lex : Lexicon) (input : List String)
    (cfuel pos : Nat) : Nat → Nat → ChartState → ChartState
  | 0, _, st => st
  | fuel + 1, i, st =>
    match (st.chart.getD pos []).get? i with
    | none => st
    | some item =>
      processColumn g lex input cfuel pos fuel (i + 1)
        (processItem g lex input cfuel pos item st)

/-- The initial chart: one empty column per position `0..N` and the seed
items for the start symbol rules. -/
def seedChart (g : Grammar) (input : List String) : ChartState :=
  (g.getRulesFor .S).foldl (fun st rule => (addItem 0 rule 0 0 st).2)
    ⟨List.replicate (input.length + 1) [], List.replicate (input.length + 1) [],
     0, []⟩

/-- An upper bound on the number of distinct chart items a column can ever
hold: each item is a grammar rule with a dot position (at most `|rhs| + 1`
choices) and an origin in `0..N`.  Used (plus one) as loop fuel. -/
def itemBound (g : Grammar) (n : Nat) : Nat :=
  (g.rules.foldl (fun a r => a + (r.rhs.length + 1)) 0) * (n + 1) + 1

/-- The full chart construction of `parse`: columns processed left to
right. -/
def runChart (g : Grammar) (lex : Lexicon) (input : List String) : ChartState :=
  let fuel := itemBound g input.length
  (List.range (input.length + 1)).foldl
    (fun st pos => processColumn g lex input fuel pos fuel 0 st)
    (seedChart g input)

/-- The inner loop of `buildNodes` over predecessor nodes for a leaf edge:
append one terminal child, then apply the result cap check.  The JS array
`results` offers its length in constant time; the accumulated length is
threaded alongside the list as the counter `n` (always equal to
`results.length`), so the cap checks compare plain numbers exactly as the
source reads `results.length`. -/
def pushTerm (item : EarleyItem) (w : String) :
    List ParseNode → List ParseNode → Nat → List ParseNode × Nat
  | [], results, n => (results, n)
  | pn :: rest, results, n =>
    let tNode : ParseNode :=
      .mk (item.rule.rhs.getD (item.dot - 1) .S) .nil (some w)
        (pn.span.2, pn.span.2 + 1)
    let results' := results ++
      [.mk item.rule.lhs (pn.children.append (.single tNode)) none
        (item.start, pn.span.2 + 1)]
    if maxTrees ≤ n + 1 then (results', n + 1)
    else pushTerm item w rest results' (n + 1)

/-- The inner loop of `buildNodes` over predecessor nodes for a branch
edge: append every expansion of the completed child, then apply the result
cap check (the child loop itself is uncapped, as in the source).  The
counter `n` tracks `results.length` as in `pushTerm`; a batch of
`childNodes.length` nodes is appended per predecessor node. -/
def pushChild (item : EarleyItem) (childNodes : List ParseNode) :
    List ParseNode → List ParseNode → Nat → List ParseNode × Nat
  | [], results, n => (results, n)
  | pn :: rest, results, n =>
    let results' := results ++ childNodes.map (fun cn =>
      ParseNode.mk item.rule.lhs (pn.children.append (.single cn)) none
        (item.start, cn.span.2))
    if maxTrees ≤ n + childNodes.length then (results', n + childNodes.length)
    else pushChild item childNodes rest results' (n + childNodes.length)

/-- The edge loop of `buildNodes`: each edge contributes through
`pushTerm` or `pushChild`, with the cap check after each edge.  An edge
with no terminal word and no children contributes nothing, and a missing
predecessor or child item yields an empty expansion list, as in the
source.  The counter `n` tracks `results.length`. -/
def edgeFold (item : EarleyItem) :
    List (Edge × List ParseNode × List ParseNode) → List ParseNode → Nat →
    List ParseNode
  | [], results, _ => results
  | (e, prevNodes, childNodes) :: rest, results, n =>
    match (match e.terminalWord with
           | some w => pushTerm item w prevNodes results n
           | none =>
             match e.children with
             | [] => (results, n)
             | _ :: _ => pushChild item childNodes prevNodes results n) with
    | (results', n') =>
      if maxTrees ≤ n' then results' else edgeFold item rest results' n'

/-- `buildNodes` from `src/parser/earley.ts`, the cycle guarded recursive
tree expansion.  The item is identified by id and looked up in the item
map (every call site of the source looks the item up by id first, and
chart item ids are unique).  Recursion is on fuel; each recursive call
adds the current id to `visiting`, so paths longer than the item count are
impossible and fuel `allItems.length + 1` is never exhausted
(`buildNodes_stable` below).  Per edge, the expansions of the predecessor
and of the completed child are pure values independent of the enumeration
position, so they are computed once per edge here, where the source
recomputes the identical child expansion for each predecessor node. -/
def buildNodes (edges : List (Nat × List Edge)) (allItems : List EarleyItem) :
    Nat → Nat → List Nat → List ParseNode
  | 0, _, _ => []
  | fuel + 1, id, visiting =>
    match allItems.find? (fun it => it.id == id) with
    | none => []
    | some item =>
      if visiting.contains id then []
      else if item.dot == 0 then
        [ParseNode.mk item.rule.lhs .nil none (item.start, item.start)]
      else
        edgeFold item
          ((mapGetList edges id).map (fun e =>
            (e, buildNodes edges allItems fuel e.itemId (id :: visiting),
             match e.terminalWord with
             | some _ => []
             | none =>
               match e.children with
               | [] => []
               | c :: _ => buildNodes edges allItems fuel c (id :: visiting))))
          [] 0

/-- The tree accumulating loop of `extractTrees`: stop accepting nodes
once the cap is reached.  The counter `n` tracks `trees.length`, read by
the source in constant time before each push. -/
def pushTrees (input : List String) (prob : ℚ) :
    List ParseNode → List ParseTree → Nat → List ParseTree × Nat
  | [], trees, n => (trees, n)
  | node :: ns, trees, n =>
    if maxTrees ≤ n then (trees, n)
    else pushTrees input prob ns (trees ++ [⟨node, input, prob⟩]) (n + 1)

/-- The loop of `extractTrees` over the final column: every completed
start-symbol item spanning the whole input contributes its expansions.
The counter `n` tracks `trees.length`. -/
def extractLoop (edges : List (Nat × List Edge)) (allItems : List EarleyItem)
    (input : List String) :
    List EarleyItem → List ParseTree → Nat → List ParseTree
  | [], trees, _ => trees
  | item :: rest, trees, n =>
    if item.rule.lhs == GSymbol.S &&
       decide (item.rule.rhs.length ≤ item.dot) && item.start == 0 then
      match pushTrees input item.rule.probability
          (buildNodes edges allItems (allItems.length + 1) item.id []) trees n with
      | (trees', n') => extractLoop edges allItems input rest trees' n'
    else extractLoop edges allItems input rest trees n

/-- `extractTrees` from `src/parser/earley.ts`.  The item map (built in
the source once per completed item, always with the same contents) is the
concatenation of all chart columns. -/
def extractTrees (st : ChartState) (input : List String) : List ParseTree :=
  let allItems := st.chart.flatten
  extractLoop st.edges allItems input (st.chart.getD input.length []) [] 0

mutual
/-- `serializeTree` from `src/parser/earley.ts`: the canonical
serialization string, built depth first. -/
def serializeTree : ParseNode → String
  | .mk sym .nil w _ =>
    "(" ++ sym.name ++ " \"" ++ w.getD "" ++ "\")"
  | .mk sym (.cons c cs) _ _ =>
    "(" ++ sym.name ++ " " ++
      String.intercalate " " (serializeList (.cons c cs)) ++ ")"

/-- Serializations of a children list, in order. -/
def serializeList : ParseNodeList → List String
  | .nil => []
  | .cons h t => serializeTree h :: serializeList t
end

/-- The loop of `deduplicateTrees`: keep a tree when its serialization has
not been seen. -/
def dedupLoop : List String → List ParseTree → List ParseTree → List ParseTree
  | _, unique, [] => unique
  | seen, unique, t :: rest =>
    let key := serializeTree t.root
    if seen.contains key then dedupLoop seen unique rest
    else dedupLoop (seen ++ [key]) (unique ++ [t]) rest

/-- `deduplicateTrees` from `src/parser/earley.ts`. -/
def deduplicateTrees (trees : List ParseTree) : List ParseTree :=
  dedupLoop [] [] trees

/-- The raw (pre deduplication) tree list of one `parse` call. -/
def rawTrees (g : Grammar) (lex : Lexicon) (input : List String) :
    List ParseTree :=
  extractTrees (runChart g lex input) input

/-- `EarleyParser.parse` from `src/parser/earley.ts`. -/
def parse (g : Grammar) (lex : Lexicon) (input : List String) : ParseResult :=
  if input.length == 0 then
    ⟨input, [], some ["Empty input"]⟩
  else
    let uniqueTrees := deduplicateTrees (rawTrees g lex input)
    ⟨input, uniqueTrees.take maxTrees,
     if uniqueTrees.length == 0 then some ["No valid parse found"] else none⟩

/-- Specification helper: the trees `dedupLoop` keeps from its remaining
input, given the serializations already seen.  `dedupLoop seen unique ts`
equals `unique ++ filterFirsts seen ts` (`dedupLoop_eq` below). -/
def filterFirsts (seen : List String) : List ParseTree → List ParseTree
  | [] => []
  | t :: rest =>
    if seen.contains (serializeTree t.root) then filterFirsts seen rest
    else t :: filterFirsts (seen ++ [serializeTree t.root]) rest

end EarleyParser

mutual
/-- Does the symbol occur anywhere in the tree (at the node itself or in
any descendant)? -/
def ParseNode.hasSymbol (k : GSymbol) : ParseNode → Bool
  | .mk s cs _ _ => s == k || ParseNodeList.anyHasSymbol k cs

/-- Does the symbol occur in any tree of the list? -/
def ParseNodeList.anyHasSymbol (k : GSymbol) : ParseNodeList → Bool
  | .nil => false
  | .cons h t => ParseNode.hasSymbol k h || ParseNodeList.anyHasSymbol k t
end

mutual
/-- All nodes of a tree: the node itself and every descendant. -/
def ParseNode.subnodes : ParseNode → List ParseNode
  | .mk s cs w sp => .mk s cs w sp :: ParseNodeList.subnodesAll cs

/-- All nodes of all trees in a children list. -/
def ParseNodeList.subnodesAll : ParseNodeList → List ParseNode
  | .nil => []
  | .cons h t => ParseNode.subnodes h ++ ParseNodeList.subnodesAll t
end

/-- Is the children list empty? -/
def ParseNodeList.isNil : ParseNodeList → Bool
  | .nil => true
  | .cons _ _ => false

/-- Do the spans of the children run contiguously from `a`, and if so up
to where?  `some b` means the spans tile the interval from `a` to `b` with
no gap and no overlap. -/
def tileFrom (a : Nat) : ParseNodeList → Option Nat
  | .nil => some a
  | .cons c cs => if c.span.1 == a then tileFrom c.span.2 cs else none

mutual
/-- The span integrity check of one node and all its descendants: a
childless node spans exactly one token, and the span of a node with
children is tiled exactly by the children spans in order. -/
def ParseNode.spanOK : ParseNode → Bool
  | .mk _ .nil _ (a, b) => b == a + 1
  | .mk _ (.cons c cs) _ (a, b) =>
    (tileFrom a (.cons c cs) == some b) && ParseNodeList.allSpanOK (.cons c cs)

/-- Span integrity of every tree in a children list. -/
def ParseNodeList.allSpanOK : ParseNodeList → Bool
  | .nil => true
  | .cons h t => ParseNode.spanOK h && ParseNodeList.allSpanOK t
end

/-- A one word lexicon: "dog" as a noun. -/
def dogLexicon : Lexicon := Lexicon.empty.addWord "dog" .N none none

/-- A grammar with an empty right-hand side rule: `S -> NP N` and
`NP -> (nothing)`. -/
def epsilonGrammar : Grammar :=
  Grammar.empty |>.addRule .S [.NP, .N] 1 |>.addRule .NP [] 1

/-- A grammar holding the same rule twice with different weights. -/
def dupRuleGrammar : Grammar :=
  Grammar.empty |>.addRule .S [.N] 1 |>.addRule .S [.N] (1/2)

/-- The duplicated-rule grammar with only its first rule. -/
def firstRuleGrammar : Grammar :=
  Grammar.empty |>.addRule .S [.N] 1

/-- A lexicon built by a sequence of `addWord` calls
`(word, pos, features, lemma)` starting from the empty lexicon. -/
def buildLexicon (ops : List (String × GSymbol × Option GrammaticalFeatures × Option String)) :
    Lexicon :=
  ops.foldl (fun lex op => lex.addWord op.1 op.2.1 op.2.2.1 op.2.2.2) Lexicon.empty

open EarleyParser

theorem dedupLoop_eq (ts : List ParseTree) :
    ∀ (seen : List String) (unique : List ParseTree),
    dedupLoop seen unique ts = unique ++ filterFirsts seen ts := by
  induction ts with
  | nil => intro seen unique; simp [dedupLoop, filterFirsts]
  | cons t rest ih =>
    intro seen unique
    simp only [dedupLoop, filterFirsts]
    split
    · exact ih seen unique
    · rw [ih]; simp

theorem deduplicateTrees_eq (ts : List ParseTree) :
    deduplicateTrees ts = filterFirsts [] ts := by
  unfold deduplicateTrees; rw [dedupLoop_eq]; simp

theorem mem_filterFirsts {t : ParseTree} :
    ∀ (ts : List ParseTree) (seen : List String), t ∈ filterFirsts seen ts →
    t ∈ ts ∧ serializeTree t.root ∉ seen := by
  intro ts
  induction ts with
  | nil => intro seen h; simp [filterFirsts] at h
  | cons u rest ih =>
    intro seen h
    simp only [filterFirsts] at h
    split at h
    next hc =>
      rcases ih seen h with ⟨h1, h2⟩
      exact ⟨List.mem_cons_of_mem _ h1, h2⟩
    next hc =>
      rcases List.mem_cons.mp h with h0 | h0
      · subst h0
        refine ⟨List.mem_cons_self _ _, ?_⟩
        simpa using hc
      · rcases ih _ h0 with ⟨h1, h2⟩
        refine ⟨List.mem_cons_of_mem _ h1, fun hmem => h2 ?_⟩
        exact List.mem_append_left _ hmem

theorem filterFirsts_pairwise :
    ∀ (ts : List ParseTree) (seen : List String),
    (filterFirsts seen ts).Pairwise
      (fun a b => serializeTree a.root ≠ serializeTree b.root) := by
  intro ts
  induction ts with
  | nil => intro seen; simp [filterFirsts]
  | cons u rest ih =>
    intro seen
    simp only [filterFirsts]
    split
    · exact ih seen
    · refine List.Pairwise.cons ?_ (ih _)
      intro v hv hne
      have h2 := (mem_filterFirsts _ _ hv).2
      rw [← hne] at h2
      exact h2 (List.mem_append_right _ (List.mem_singleton_self _))

theorem filterFirsts_first :
    ∀ (ts : List ParseTree) (seen : List String) (t : ParseTree),
    t ∈ filterFirsts seen ts →
    ∃ i, ∃ hi : i < ts.length, ts.get ⟨i, hi⟩ = t ∧
      ∀ j, ∀ hj : j < ts.length, j < i →
        serializeTree (ts.get ⟨j, hj⟩).root ≠ serializeTree t.root := by
  intro ts
  induction ts with
  | nil => intro seen t h; simp [filterFirsts] at h
  | cons u rest ih =>
    intro seen t h
    simp only [filterFirsts] at h
    split at h
    next hc =>
      rcases ih seen t h with ⟨i, hi, hget, hfirst⟩
      refine ⟨i + 1, by simpa using Nat.succ_lt_succ hi, by simpa using hget, ?_⟩
      intro j hj hlt
      cases j with
      | zero =>
        simp only [List.get]
        intro heq
        have h2 := (mem_filterFirsts rest seen h).2
        rw [← heq] at h2
        exact h2 (by simpa using hc)
      | succ j' =>
        have hj' : j' < rest.length := by simpa using hj
        have := hfirst j' hj' (by omega)
        simpa using this
    next hc =>
      rcases List.mem_cons.mp h with h0 | h0
      · subst h0
        exact ⟨0, by simp, rfl, fun j hj hlt => absurd hlt (by omega)⟩
      · rcases ih _ t h0 with ⟨i, hi, hget, hfirst⟩
        refine ⟨i + 1, by simpa using Nat.succ_lt_succ hi, by simpa using hget, ?_⟩
        intro j hj hlt
        cases j with
        | zero =>
          simp only [List.get]
          intro heq
          have h2 := (mem_filterFirsts _ _ h0).2
          rw [← heq] at h2
          exact h2 (List.mem_append_right _ (List.mem_singleton_self _))
        | succ j' =>
          have hj' : j' < rest.length := by simpa using hj
          have := hfirst j' hj' (by omega)
          simpa using this

theorem parse_empty_input (g : Grammar) (lex : Lexicon) :
    parse g lex [] = ⟨[], [], some ["Empty input"]⟩ := rfl

theorem parse_of_ne_nil (g : Grammar) (lex : Lexicon) (input : List String)
    (h : input ≠ []) :
    parse g lex input =
      ⟨input, (deduplicateTrees (rawTrees g lex input)).take maxTrees,
       if (deduplicateTrees (rawTrees g lex input)).length == 0
       then some ["No valid parse found"] else none⟩ := by
  unfold parse
  rw [if_neg]
  simp only [beq_iff_eq, List.length_eq_zero]
  exact h

/-- C3: for every grammar, lexicon and token sequence, the tree list of
the parse result contains at most 100 trees. -/
theorem parse_tree_count_bounded (g : Grammar) (lex : Lexicon)
    (input : List String) : (parse g lex input).trees.length ≤ 100 := by
  by_cases h : input = []
  · subst h; rw [parse_empty_input]; simp
  · rw [parse_of_ne_nil g lex input h]
    simp only [maxTrees]
    exact (deduplicateTrees (rawTrees g lex input)).length_take_le 100

/-- C4: no two trees of one parse result share a canonical serialization,
and every returned tree is the first enumerated raw tree bearing its
serialization. -/
theorem parse_trees_serializations_unique (g : Grammar) (lex : Lexicon)
    (input : List String) :
    (parse g lex input).trees.Pairwise
      (fun a b => serializeTree a.root ≠ serializeTree b.root) ∧
    ∀ t ∈ (parse g lex input).trees,
      ∃ i, ∃ hi : i < (rawTrees g lex input).length,
        (rawTrees g lex input).get ⟨i, hi⟩ = t ∧
        ∀ j, ∀ hj : j < (rawTrees g lex input).length, j < i →
          serializeTree ((rawTrees g lex input).get ⟨j, hj⟩).root ≠
            serializeTree t.root := by
  by_cases h : input = []
  · subst h; rw [parse_empty_input]
    exact ⟨by simp, by simp⟩
  · rw [parse_of_ne_nil g lex input h]
    constructor
    · have hp := filterFirsts_pairwise (rawTrees g lex input) []
      rw [← deduplicateTrees_eq] at hp
      exact hp.sublist (List.take_sublist _ _)
    · intro t ht
      have ht' : t ∈ deduplicateTrees (rawTrees g lex input) :=
        List.mem_of_mem_take ht
      rw [deduplicateTrees_eq] at ht'
      exact filterFirsts_first _ _ _ ht'

theorem parse_trees_serializations_unique_witness :
    (parse createEnglishGrammar createBuffaloLexicon ["buffalo"]).trees.Pairwise
      (fun a b => serializeTree a.root ≠ serializeTree b.root) :=
  (parse_trees_serializations_unique createEnglishGrammar createBuffaloLexicon
    ["buffalo"]).1

/-- C5: parse is deterministic; two calls with equal grammar, lexicon and
token sequence return trees with identical canonical serializations in
identical order.  The embedded `parse` is a pure function (the source has
no randomness and iterates only insertion ordered structures), so equal
arguments give equal results. -/
theorem parse_deterministic (g g' : Grammar) (lex lex' : Lexicon)
    (input input' : List String) (hg : g = g') (hl : lex = lex')
    (hi : input = input') :
    (parse g lex input).trees.map (fun t => serializeTree t.root) =
    (parse g' lex' input').trees.map (fun t => serializeTree t.root) := by
  subst hg; subst hl; subst hi; rfl

theorem parse_deterministic_witness :
    (parse createEnglishGrammar createBuffaloLexicon ["buffalo"]).trees.map
        (fun t => serializeTree t.root) =
    (parse createEnglishGrammar createBuffaloLexicon ["buffalo"]).trees.map
        (fun t => serializeTree t.root) :=
  parse_deterministic _ _ _ _ _ _ rfl rfl rfl

/-- C6: an error is reported exactly when the tree list is empty; the
empty input error is "Empty input", and a non empty input with no
derivation yields "No valid parse found". -/
theorem parse_errors_iff_no_trees (g : Grammar) (lex : Lexicon)
    (input : List String) :
    ((parse g lex input).errors ≠ none ↔ (parse g lex input).trees = []) ∧
    (input = [] → (parse g lex input).errors = some ["Empty input"]) ∧
    (input ≠ [] → (parse g lex input).trees = [] →
      (parse g lex input).errors = some ["No valid parse found"]) := by
  by_cases h : input = []
  · subst h
    rw [parse_empty_input]
    exact ⟨⟨fun _ => rfl, fun _ => by simp⟩, fun _ => rfl,
           fun hne => absurd rfl hne⟩
  · rw [parse_of_ne_nil g lex input h]
    by_cases hu : deduplicateTrees (rawTrees g lex input) = []
    · refine ⟨⟨fun _ => by simp [hu], fun _ => by simp [hu]⟩,
              fun he => absurd he h, fun _ _ => by simp [hu]⟩
    · have hlen : ((deduplicateTrees (rawTrees g lex input)).length == 0) = false := by
        simp only [beq_eq_false_iff_ne, ne_eq, List.length_eq_zero]
        exact hu
      have htake : (deduplicateTrees (rawTrees g lex input)).take maxTrees ≠ [] := by
        simp only [ne_eq, List.take_eq_nil_iff, maxTrees]
        rintro (h100 | hnil)
        · exact absurd h100 (by simp)
        · exact hu hnil
      refine ⟨⟨fun he => absurd (by simp [hlen]) he, fun ht => absurd ht htake⟩,
              fun he => absurd he h, fun _ ht => absurd ht htake⟩

set_option maxRecDepth 100000 in
theorem parse_errors_iff_no_trees_witness :
    (parse createEnglishGrammar createBuffaloLexicon []).errors =
      some ["Empty input"] ∧
    (parse createEnglishGrammar createBuffaloLexicon ["xyz"]).errors =
      some ["No valid parse found"] ∧
    (parse createEnglishGrammar createBuffaloLexicon ["buffalo"]).errors = none := by
  have hxyz : (parse createEnglishGrammar createBuffaloLexicon ["xyz"]).trees.length = 0 := by
    decide!
  have hbuf : (parse createEnglishGrammar createBuffaloLexicon ["buffalo"]).trees.length = 3 := by
    decide!
  refine ⟨(parse_errors_iff_no_trees createEnglishGrammar createBuffaloLexicon []).2.1 rfl,
          (parse_errors_iff_no_trees createEnglishGrammar createBuffaloLexicon
            ["xyz"]).2.2 (by simp) (List.length_eq_zero.mp hxyz), ?_⟩
  have h := (parse_errors_iff_no_trees createEnglishGrammar createBuffaloLexicon
    ["buffalo"]).1
  by_contra hne
  have ht := h.mp hne
  rw [ht] at hbuf
  simp at hbuf

theorem mapGetList_cons {K V : Type} [BEq K] (k0 : K) (vs : List V)
    (rest : List (K × List V)) (k' : K) :
    mapGetList ((k0, vs) :: rest) k' =
      if k0 == k' then vs else mapGetList rest k' := by
  simp only [mapGetList, List.find?]
  cases h : (k0 == k') <;> simp [h]

theorem mapGetList_mapPush {K V : Type} [BEq K] [LawfulBEq K]
    (k : K) (v : V) :
    ∀ (m : List (K × List V)) (k' : K),
    mapGetList (mapPush m k v) k' =
      if k' == k then mapGetList m k' ++ [v] else mapGetList m k' := by
  intro m
  induction m with
  | nil =>
    intro k'
    cases h : (k' == k) with
    | true =>
      have : k' = k := eq_of_beq h
      subst this
      simp [mapPush, mapGetList, List.find?]
    | false =>
      have hb : (k == k') = false := by
        simp only [beq_eq_false_iff_ne, ne_eq]
        intro hh
        rw [hh] at h
        simp at h
      simp [mapPush, mapGetList, List.find?, hb]
  | cons p rest ih =>
    intro k'
    rcases p with ⟨k0, vs⟩
    simp only [mapPush]
    cases h0 : (k0 == k) with
    | true =>
      have hk0 : k0 = k := eq_of_beq h0
      subst hk0
      rw [if_pos rfl, mapGetList_cons, mapGetList_cons]
      cases h : (k0 == k') with
      | true =>
        have : k' = k0 := (eq_of_beq h).symm
        subst this
        simp
      | false =>
        have hb : (k' == k0) = false := by
          simp only [beq_eq_false_iff_ne, ne_eq]
          intro hh
          rw [hh] at h
          simp at h
        simp [hb]
    | false =>
      rw [if_neg (by simp [h0]), mapGetList_cons, mapGetList_cons]
      cases h : (k0 == k') with
      | true =>
        have hk' : k' = k0 := (eq_of_beq h).symm
        have : (k' == k) = false := by
          rw [hk']
          exact h0
        simp [this]
      | false =>
        simp only [Bool.false_eq_true, if_false]
        exact ih k'

theorem foldl_addWord_lookup (v : String) :
    ∀ (ops : List (String × GSymbol × Option GrammaticalFeatures × Option String))
      (lex : Lexicon), (∀ op ∈ ops, lowerStr op.1 ≠ lowerStr v) →
    (ops.foldl (fun l op => l.addWord op.1 op.2.1 op.2.2.1 op.2.2.2) lex).lookup v =
      lex.lookup v := by
  intro ops
  induction ops with
  | nil => intro lex _; rfl
  | cons op rest ih =>
    intro lex h
    simp only [List.foldl]
    rw [ih _ (fun o ho => h o (List.mem_cons_of_mem _ ho))]
    simp only [Lexicon.addWord, Lexicon.lookup]
    rw [mapGetList_mapPush]
    have hb : (lowerStr v == lowerStr op.1) = false := by
      simp only [beq_eq_false_iff_ne, ne_eq]
      exact fun hh => h op (List.mem_cons_self _ _) hh.symm
    rw [hb]
    simp

/-- C7: `addWord` appends one entry for the word without removing or
merging existing entries, `lookup` is case insensitive (any two spellings
with the same lowercasing give the same entry list), and looking up a word
never added by any `addWord` call gives the empty list. -/
theorem lexicon_contract :
    (∀ (lex : Lexicon) (w : String) (p : GSymbol)
       (f : Option GrammaticalFeatures) (lm : Option String) (v : String),
       (lex.addWord w p f lm).lookup v =
         if lowerStr v == lowerStr w
         then lex.lookup v ++ [⟨w, p, lm.getD (lowerStr w), f⟩]
         else lex.lookup v) ∧
    (∀ (lex : Lexicon) (w1 w2 : String), lowerStr w1 = lowerStr w2 →
       lex.lookup w1 = lex.lookup w2) ∧
    (∀ (ops : List (String × GSymbol × Option GrammaticalFeatures × Option String))
       (v : String), (∀ op ∈ ops, lowerStr op.1 ≠ lowerStr v) →
       (buildLexicon ops).lookup v = []) := by
  refine ⟨?_, ?_, ?_⟩
  · intro lex w p f lm v
    simp only [Lexicon.addWord, Lexicon.lookup]
    rw [mapGetList_mapPush]
  · intro lex w1 w2 h
    simp only [Lexicon.lookup]
    rw [h]
  · intro ops v h
    unfold buildLexicon
    rw [foldl_addWord_lookup v ops Lexicon.empty h]
    rfl

theorem lexicon_contract_witness :
    ((Lexicon.empty.addWord "Dog" GSymbol.N none none).lookup "DOG" =
      [⟨"Dog", GSymbol.N, "dog", none⟩]) ∧
    (createBuffaloLexicon.lookup "BUFFALO" = createBuffaloLexicon.lookup "Buffalo") ∧
    ((buildLexicon [("dog", GSymbol.N, none, none)]).lookup "cat" = []) := by
  refine ⟨?_,
    lexicon_contract.2.1 createBuffaloLexicon "BUFFALO" "Buffalo" (by decide),
    lexicon_contract.2.2 [("dog", GSymbol.N, none, none)] "cat" (by decide)⟩
  rw [lexicon_contract.1 Lexicon.empty "Dog" GSymbol.N none none "DOG"]
  decide

theorem length_filter_le_of_imp {α : Type} (p q : α → Bool)
    (h : ∀ x, q x = true → p x = true) :
    ∀ l : List α, (l.filter q).length ≤ (l.filter p).length := by
  intro l
  induction l with
  | nil => simp
  | cons x xs ih =>
    simp only [List.filter]
    cases hq : q x with
    | true => rw [h x hq]; simpa using ih
    | false => cases hp : p x <;> simp <;> omega

theorem length_filter_lt_of_mem {α : Type} (p q : α → Bool)
    (himp : ∀ x, q x = true → p x = true) {a : α} :
    ∀ (l : List α), a ∈ l → p a = true → q a = false →
    (l.filter q).length < (l.filter p).length := by
  intro l
  induction l with
  | nil => intro h; simp at h
  | cons x xs ih =>
    intro hmem hp hq
    rcases List.mem_cons.mp hmem with rfl | hmem'
    · simp only [List.filter, hp, hq]
      exact Nat.lt_succ_of_le (length_filter_le_of_imp p q himp xs)
    · simp only [List.filter]
      cases hqx : q x with
      | true =>
        rw [himp x hqx]
        simpa using ih hmem' hp hq
      | false =>
        cases hpx : p x with
        | false => exact ih hmem' hp hq
        | true =>
          simp only [List.length_cons]
          exact Nat.lt_succ_of_lt (ih hmem' hp hq)

theorem buildNodes_measure_lt (allItems : List EarleyParser.EarleyItem)
    (id : Nat) (visiting : List Nat) (item : EarleyParser.EarleyItem)
    (hfind : allItems.find? (fun it => it.id == id) = some item)
    (hvis : visiting.contains id = false) :
    (allItems.filter (fun it => !((id :: visiting).contains it.id))).length <
    (allItems.filter (fun it => !(visiting.contains it.id))).length := by
  have hmem : item ∈ allItems := List.mem_of_find?_eq_some hfind
  have hid : item.id = id := by simpa using List.find?_some hfind
  apply length_filter_lt_of_mem _ _ ?imp allItems hmem ?hp ?hq
  case imp =>
    intro x hx
    simp only [List.contains_cons, Bool.not_eq_true', Bool.or_eq_false_iff] at hx
    simpa using hx.2
  case hp => rw [hid, hvis]; rfl
  case hq => rw [hid]; simp [List.contains_cons]

theorem buildNodes_fuel_congr (edges : List (Nat × List EarleyParser.Edge))
    (allItems : List EarleyParser.EarleyItem) :
    ∀ (k k' id : Nat) (visiting : List Nat),
    (allItems.filter (fun it => !(visiting.contains it.id))).length < k →
    (allItems.filter (fun it => !(visiting.contains it.id))).length < k' →
    buildNodes edges allItems k id visiting =
      buildNodes edges allItems k' id visiting := by
  intro k
  induction k with
  | zero => intro k' id vis h _; omega
  | succ k ih =>
    intro k' id vis hk hk'
    cases k' with
    | zero => omega
    | succ k'' =>
      simp only [buildNodes]
      cases hfind : allItems.find? (fun it => it.id == id) with
      | none => rfl
      | some item =>
        cases hvis : vis.contains id with
        | true => simp
        | false =>
          simp only []
          by_cases hdot : (item.dot == 0) = true
          · simp [hdot]
          · simp only [hdot, Bool.false_eq_true, if_false]
            have hm := buildNodes_measure_lt allItems id vis item hfind hvis
            have h1 : (allItems.filter
                (fun it => !((id :: vis).contains it.id))).length < k := by omega
            have h2 : (allItems.filter
                (fun it => !((id :: vis).contains it.id))).length < k'' := by omega
            congr 1
            apply List.map_congr_left
            intro e he
            have hA := ih k'' e.itemId (id :: vis) h1 h2
            rw [hA]
            have hB : (match e.terminalWord with
                 | some _ => ([] : List ParseNode)
                 | none => match e.children with
                   | [] => []
                   | c :: _ => buildNodes edges allItems k c (id :: vis)) =
                (match e.terminalWord with
                 | some _ => []
                 | none => match e.children with
                   | [] => []
                   | c :: _ => buildNodes edges allItems k'' c (id :: vis)) := by
              cases e.terminalWord with
              | some w => rfl
              | none =>
                cases e.children with
                | nil => rfl
                | cons c cs => exact ih k'' c (id :: vis) h1 h2
            rw [hB]

theorem buildNodes_visited (edges : List (Nat × List EarleyParser.Edge))
    (allItems : List EarleyParser.EarleyItem) (fuel id : Nat)
    (visiting : List Nat) (h : visiting.contains id = true) :
    buildNodes edges allItems fuel id visiting = [] := by
  cases fuel with
  | zero => rfl
  | succ k =>
    simp only [buildNodes]
    cases hfind : allItems.find? (fun it => it.id == id) with
    | none => rfl
    | some item => dsimp only; rw [if_pos h]

/-- C8: tree extraction terminates on every finite chart.  `buildNodes`
tracks the item ids on the active recursion path in `visiting`; a call on
an id already on the path returns the empty node list (second conjunct).
Consequently every recursion path is shorter than the item count, and the
computation is independent of the fuel once the fuel exceeds the number of
chart items (first conjunct) - in particular the fuel
`allItems.length + 1` supplied by `extractTrees` never runs out. -/
theorem buildNodes_terminates (edges : List (Nat × List EarleyParser.Edge))
    (allItems : List EarleyParser.EarleyItem) (fuel fuel' id : Nat)
    (visiting : List Nat)
    (h : allItems.length < fuel) (h' : allItems.length < fuel') :
    buildNodes edges allItems fuel id visiting =
      buildNodes edges allItems fuel' id visiting ∧
    (visiting.contains id = true →
      buildNodes edges allItems fuel id visiting = []) := by
  constructor
  · apply buildNodes_fuel_congr
    · exact lt_of_le_of_lt (List.length_filter_le _ _) h
    · exact lt_of_le_of_lt (List.length_filter_le _ _) h'
  · exact buildNodes_visited edges allItems fuel id visiting

theorem buildNodes_terminates_witness :
    (buildNodes [(0, [⟨0, [], some "w"⟩])] [⟨⟨.S, [.N], 1⟩, 1, 0, 0⟩] 2 0 [] =
      buildNodes [(0, [⟨0, [], some "w"⟩])] [⟨⟨.S, [.N], 1⟩, 1, 0, 0⟩] 9 0 []) ∧
    (buildNodes [(0, [⟨0, [], some "w"⟩])] [⟨⟨.S, [.N], 1⟩, 1, 0, 0⟩] 9 0 [0] = []) :=
  ⟨(buildNodes_terminates _ _ 2 9 0 [] (by decide) (by decide)).1,
   (buildNodes_terminates _ _ 9 9 0 [0] (by decide) (by decide)).2 (by decide)⟩

theorem addItem_key_present (pos : Nat) (rule : GrammarRule) (dot start : Nat)
    (st : EarleyParser.ChartState)
    (h : ((st.chartSet.getD pos []).contains (chartKey rule dot start)) = true) :
    (addItem pos rule dot start st).2 = st := by
  unfold addItem
  rw [if_pos h]

theorem addItem_chartSet_contains (pos : Nat) (rule : GrammarRule)
    (dot start : Nat) (st : EarleyParser.ChartState)
    (hpos : pos < st.chartSet.length) :
    (((addItem pos rule dot start st).2).chartSet.getD pos []).contains
      (chartKey rule dot start) = true := by
  unfold addItem
  by_cases hc : ((st.chartSet.getD pos []).contains (chartKey rule dot start)) = true
  · rw [if_pos hc]; exact hc
  · rw [if_neg hc]
    simp only []
    have hget : ((st.chartSet.set pos ((st.chartSet.getD pos []) ++
        [chartKey rule dot start])).getD pos []) =
        (st.chartSet.getD pos []) ++ [chartKey rule dot start] := by
      simp [List.getD, hpos]
    rw [hget]
    simp

set_option maxRecDepth 100000 in
/-- C10: chart item dedup compares rules by lhs and rhs only, ignoring the
weight field: inserting an item for a rule that matches an already
inserted one up to weight leaves the chart state unchanged, and a grammar
holding the same rule twice with different weights parses exactly as the
grammar holding only the first copy, the surviving derivation carrying the
first copy's weight. -/
theorem addItem_ignores_weight :
    (∀ (pos : Nat) (rule rule' : GrammarRule) (dot start : Nat)
       (st : EarleyParser.ChartState),
       rule.lhs = rule'.lhs → rule.rhs = rule'.rhs →
       pos < st.chartSet.length →
       (addItem pos rule' dot start (addItem pos rule dot start st).2).2 =
         (addItem pos rule dot start st).2) ∧
    ((parse dupRuleGrammar dogLexicon ["dog"]).trees.map
        (fun t => (serializeTree t.root, t.probability, t.root.span)) =
      (parse firstRuleGrammar dogLexicon ["dog"]).trees.map
        (fun t => (serializeTree t.root, t.probability, t.root.span))) ∧
    ((parse dupRuleGrammar dogLexicon ["dog"]).trees.map
        (fun t => t.probability) = [1]) := by
  refine ⟨?_, by decide!, by decide!⟩
  intro pos rule rule' dot start st hlhs hrhs hpos
  have hkey : chartKey rule' dot start = chartKey rule dot start := by
    simp [chartKey, hlhs, hrhs]
  apply addItem_key_present
  rw [hkey]
  exact addItem_chartSet_contains pos rule dot start st hpos

theorem addItem_ignores_weight_witness :
    (addItem 0 ⟨.S, [.N], 1/2⟩ 0 0
        (addItem 0 ⟨.S, [.N], 1⟩ 0 0 (seedChart firstRuleGrammar ["dog"])).2).2 =
      (addItem 0 ⟨.S, [.N], 1⟩ 0 0 (seedChart firstRuleGrammar ["dog"])).2 :=
  addItem_ignores_weight.1 0 ⟨.S, [.N], 1⟩ ⟨.S, [.N], 1/2⟩ 0 0 _ rfl rfl
    (by decide)
